import Mathlib

/-!
Shallow embedding of the fedimint `mint-client` crate (`src/mint-client/src/lib.rs`)
and verification of its specification.

Conventions of the embedding:
* Rust `u64` is modelled as `Nat`; where overflow matters the value is reduced
  `% 2^64` explicitly.  Bytes are `Nat` values (< 256 for real data).
* `Amount { milli_sat: u64 }` is modelled as `Nat` (the `milli_sat` field).
* `TransactionId` (a 32-byte hash) is modelled as `List Nat` (its bytes); a
  valid id has length 32.
* `CoinNonce` (a musig public key, from the `mint-api` crate which is not part
  of the reviewed source) is modelled from the spec by its byte serialization:
  a `List Nat`, with `to_bytes`/`from_bytes` the identity.
* Cryptographic primitives (`tbs`, `musig`) are trusted external collaborators;
  they are modelled as an abstract record of functions (`Primitives`) over the
  concrete carrier types, so every definition stays executable.
* Fallible operations return `Except`; a Rust `panic!`/`expect` outcome is a
  distinguished constructor of the result type.
-/

namespace MintClientModel

/-- Rust `Amount` from `mint-api`: `struct Amount { milli_sat: u64 }`.  Modelled as the
`Nat` value of `milli_sat`. -/
abbrev Amount := Nat

/-- Rust `TransactionId`: 32-byte hash, modelled as its byte list. -/
abbrev TransactionId := List Nat

/-- Rust `CoinNonce`: modelled from the spec (the `mint-api` crate is external) as its
variable-length byte serialization. -/
abbrev CoinNonce := List Nat

/-- Rust `DecodingError(String)` from the `database` crate. -/
structure DecodingError where
  msg : String
deriving DecidableEq, Repr

/-- Rust `DB_PREFIX_COIN: u8 = 0x20`. -/
def DB_PREFIX_COIN : Nat := 0x20

/-- Rust `DB_PREFIX_ISSUANCE: u8 = 0x21`. -/
def DB_PREFIX_ISSUANCE : Nat := 0x21

/-- Big-endian byte representation of a number in `w` bytes, mirroring Rust's
`u64::to_be_bytes` when `w = 8` and the value fits. -/
def beBytes : Nat → Nat → List Nat
  | 0, _ => []
  | w + 1, n => (n / 256 ^ w) % 256 :: beBytes w (n % 256 ^ w)

/-- Reading back a big-endian byte list, mirroring `u64::from_be_bytes`. -/
def fromBeBytes (l : List Nat) : Nat :=
  l.foldl (fun acc b => acc * 256 + b) 0

/-- Rust `IssuanceKey { issuance_id: TransactionId }`. -/
structure IssuanceKey where
  issuance_id : TransactionId
deriving DecidableEq, Repr

/-- Rust `CoinKey { amount: Amount, nonce: CoinNonce }`. -/
structure CoinKey where
  amount : Amount
  nonce : CoinNonce
deriving DecidableEq, Repr

/-- Rust `impl DatabaseKeyPrefix for IssuanceKey`: `DB_PREFIX_ISSUANCE` byte followed
by the 32 id bytes. -/
def IssuanceKey.to_bytes (k : IssuanceKey) : List Nat :=
  DB_PREFIX_ISSUANCE :: k.issuance_id

/-- Rust `impl DatabaseKey for IssuanceKey::from_bytes`: length must be exactly 33 and
the first byte must be `DB_PREFIX_ISSUANCE`; the remaining 32 bytes are the id
(`TransactionId::from_slice(&data[1..]).unwrap()` cannot fail after the length
check). -/
def IssuanceKey.from_bytes : List Nat → Except DecodingError IssuanceKey
  | [] => .error ⟨"IssuanceKey: expected 33 bytes"⟩
  | b :: rest =>
    if (b :: rest).length ≠ 33 then .error ⟨"IssuanceKey: expected 33 bytes"⟩
    else if b ≠ DB_PREFIX_ISSUANCE then .error ⟨"IssuanceKey: wrong prefix"⟩
    else .ok ⟨rest⟩

/-- Rust `impl DatabaseKeyPrefix for CoinKey`: `DB_PREFIX_COIN` byte, the 8-byte
big-endian `milli_sat` amount, then the nonce bytes. -/
def CoinKey.to_bytes (k : CoinKey) : List Nat :=
  DB_PREFIX_COIN :: (beBytes 8 (k.amount % 2 ^ 64) ++ k.nonce)

/-- Rust `impl DatabaseKey for CoinKey::from_bytes`: length must be at least 9 and the
first byte `DB_PREFIX_COIN`; bytes 1..9 are the big-endian amount, the rest the
nonce (`CoinNonce::from_bytes`, modelled from the spec as identity on bytes). -/
def CoinKey.from_bytes : List Nat → Except DecodingError CoinKey
  | [] => .error ⟨"CoinKey: expected at least 9 bytes"⟩
  | b :: rest =>
    if (b :: rest).length < 9 then .error ⟨"CoinKey: expected at least 9 bytes"⟩
    else if b ≠ DB_PREFIX_COIN then .error ⟨"CoinKey: wrong prefix"⟩
    else .ok ⟨fromBeBytes (rest.take 8), rest.drop 8⟩

/-- Strict lexicographic order on byte lists (the order a key-value store uses
for range scans). -/
def lexLt : List Nat → List Nat → Bool
  | _, [] => false
  | [], _ :: _ => true
  | a :: as_, b :: bs => a < b || (a = b && lexLt as_ bs)

/-- Modelled from the spec: `Coins<T>` from `mint-api` is a
`BTreeMap<Amount, Vec<T>>` — "mapping from Amount tier to an ordered sequence of
`T`".  Modelled as an association list of tiers kept in ascending key order. -/
structure Coins (T : Type) where
  coins : List (Amount × List T)
deriving DecidableEq, Repr

/-- Flattened `(amount, item)` iteration of a `Coins` container, tier by tier in
key order (Rust `Coins::iter`/`into_iter` over the `BTreeMap`). -/
def Coins.iter {T : Type} (c : Coins T) : List (Amount × T) :=
  c.coins.flatMap (fun p => p.2.map (fun t => (p.1, t)))

/-- The shape of a `Coins` container: its tiers with their item counts, in
order. -/
def Coins.shape {T : Type} (c : Coins T) : List (Amount × Nat) :=
  c.coins.map (fun p => (p.1, p.2.length))

/-- Modelled from the spec: `Coins::structural_eq` — "two `Coins` structures are
structurally equal iff they have the same set of tiers and the same count of
items per tier, in the same order". -/
def Coins.structural_eq {A B : Type} (a : Coins A) (b : Coins B) : Prop :=
  a.shape = b.shape

instance {A B : Type} (a : Coins A) (b : Coins B) : Decidable (a.structural_eq b) := by
  unfold Coins.structural_eq; infer_instance

/-- Insertion of one `(amount, item)` pair, mirroring pushing onto the `Vec` of
the `BTreeMap` entry for that amount (creating the tier in sorted position when
absent).  This is the building block of `Coins`' `FromIterator`. -/
def Coins.insertOne {T : Type} : List (Amount × List T) → Amount → T → List (Amount × List T)
  | [], a, t => [(a, [t])]
  | (a', ts) :: rest, a, t =>
    if a = a' then (a', ts ++ [t]) :: rest
    else if a < a' then (a, [t]) :: (a', ts) :: rest
    else (a', ts) :: Coins.insertOne rest a t

/-- Modelled from the spec: `FromIterator<(Amount, T)> for Coins<T>` — collect a
sequence of `(amount, item)` pairs into the tier map, preserving per-tier
insertion order. -/
def Coins.ofList {T : Type} (l : List (Amount × T)) : Coins T :=
  ⟨l.foldl (fun acc p => Coins.insertOne acc p.1 p.2) []⟩

/-- Payload-wise map over a `Coins` container (shape preserving). -/
def Coins.mapItems {A B : Type} (f : A → B) (c : Coins A) : Coins B :=
  ⟨c.coins.map (fun p => (p.1, p.2.map f))⟩

/-- Rust `Keys<K>` from `mint-api`: mapping from amount tier to key material,
modelled from the spec as an association list. -/
abbrev Keys (K : Type) := List (Amount × K)

/-- Modelled from the spec: `Keys::tier` — lookup of the key material for a
tier; "every tier a client ever requests must have a corresponding entry, else
lookup fails with a typed error" (`InvalidAmountTierError`). -/
def Keys.tier {K : Type} (ks : Keys K) (a : Amount) : Option K :=
  (ks.find? (fun p => p.1 = a)).map (fun p => p.2)

/-- Modelled from the spec: `Coins::represent_amount(amount, tiers)` — "a
change-making/denomination decomposition" of the amount into draws of the tiers
present in the `Keys` table, greedily from the largest tier down. -/
def representDraws : List Amount → Nat → List Amount
  | [], _ => []
  | a :: rest, rem =>
    if a = 0 then representDraws rest rem
    else List.replicate (rem / a) a ++ representDraws rest (rem % a)

/-- Modelled from the spec: the `Coins Unit` decomposition produced by
`Coins::represent_amount` (`Keys` is ordered ascending, so the greedy pass runs
over the reversed tier list). -/
def Coins.represent_amount {K : Type} (amount : Nat) (tiers : Keys K) : Coins Unit :=
  Coins.ofList ((representDraws (tiers.map (fun p => p.1)).reverse amount).map (fun a => (a, ())))

/-- The trusted cryptographic collaborators (`musig`, `tbs`), modelled as an
abstract record of functions over the concrete carrier types: secret keys,
blinding keys, messages, blinded messages and (blind) signatures are `Nat`,
nonces are byte lists. -/
structure Primitives where
  /-- `musig::SecKey::to_public`, wrapped into `CoinNonce`. -/
  toPublic : Nat → CoinNonce
  /-- `CoinNonce::to_message`. -/
  nonceToMessage : CoinNonce → Nat
  /-- `tbs::blind_message : Message → (BlindingKey, BlindedMessage)`. -/
  blindMessage : Nat → Nat × Nat
  /-- `tbs::unblind_signature : (BlindingKey, BlindSignature) → Signature`. -/
  unblind : Nat → Nat → Nat
  /-- `Coin::verify` of the coin `(nonce, sig)` against a tier's aggregate
  public key. -/
  verify : CoinNonce → Nat → Nat → Bool
  /-- `TxId::id` of a `PegInRequest` — a deterministic hash of the public sign
  request. -/
  txId : Coins Nat → TransactionId

/-- Rust `CoinRequest { spend_key, nonce, blinding_key }`. -/
structure CoinRequest where
  spend_key : Nat
  nonce : CoinNonce
  blinding_key : Nat
deriving DecidableEq, Repr

/-- Rust `IssuanceRequest { coins: Coins<CoinRequest> }`. -/
structure IssuanceRequest where
  coins : Coins CoinRequest
deriving DecidableEq, Repr

/-- Rust `SignRequest(Coins<BlindedMessage>)`. -/
abbrev SignRequest := Coins Nat

/-- Rust `SigResponse(Coins<BlindSignature>)`. -/
abbrev SigResponse := Coins Nat

/-- Rust `Coin(CoinNonce, Signature)` from `mint-api`. -/
structure MintCoin where
  nonce : CoinNonce
  sig : Nat
deriving DecidableEq, Repr

/-- Rust `SpendableCoin { coin, spend_key }`. -/
structure SpendableCoin where
  coin : MintCoin
  spend_key : Nat
deriving DecidableEq, Repr

/-- Rust `CoinFinalizationError`. -/
inductive CoinFinalizationError where
  | WrongMintAnswer
  | InvalidSignature (idx : Nat)
  | InvalidIssuanceId (expected got : TransactionId)
  | InvalidAmountTier (a : Amount)
deriving DecidableEq, Repr

/-- Rust `ClientError`. -/
inductive ClientError where
  | MintError
  | FinalizationError (e : CoinFinalizationError)
deriving DecidableEq, Repr

/-- Rust `CoinRequest::new`: draw a fresh spend key from the rng, derive its nonce,
and blind the nonce's message; returns the private request and the blinded
message.  The single random draw the constructor consumes is passed in as
`r`. -/
def CoinRequest.new (P : Primitives) (r : Nat) : CoinRequest × Nat :=
  let spend_key := r
  let nonce := P.toPublic spend_key
  let bm := P.blindMessage (P.nonceToMessage nonce)
  (⟨spend_key, nonce, bm.1⟩, bm.2)

/-- Rust `IssuanceRequest::new`: decompose the amount into tier slots, generate one
`CoinRequest`/`BlindedMessage` pair per slot (slot `i` consumes random draw
`rng i`), and collect the two positional halves into the private
`IssuanceRequest` and the public `SignRequest`. -/
def IssuanceRequest.new {K : Type} (P : Primitives) (amount : Nat) (amount_tiers : Keys K)
    (rng : Nat → Nat) : IssuanceRequest × SignRequest :=
  let slots := (Coins.represent_amount amount amount_tiers).iter
  let pairs := (List.range slots.length).zip slots |>.map
    (fun q =>
      let cr := CoinRequest.new P (rng q.1)
      ((q.2.1, cr.1), (q.2.1, cr.2)))
  (⟨Coins.ofList (pairs.map (fun p => p.1))⟩, Coins.ofList (pairs.map (fun p => p.2)))

/-- The per-pair loop body of `IssuanceRequest::finalize`: walk the zipped
`(amount, coin_request) × (amount, blind_signature)` pairs carrying the
positional index, unblind, verify against the tier's aggregate key, and
short-circuit on the first error exactly as Rust's
`collect::<Result<_, _>>` does. -/
def finalizeGo (P : Primitives) (mint_pub_key : Keys Nat) :
    Nat → List ((Amount × CoinRequest) × (Amount × Nat)) →
    Except CoinFinalizationError (List (Amount × SpendableCoin))
  | _, [] => .ok []
  | idx, (p, q) :: rest =>
    match mint_pub_key.tier p.1 with
    | none => .error (.InvalidAmountTier p.1)
    | some key =>
      let sig := P.unblind p.2.blinding_key q.2
      if P.verify p.2.nonce sig key then
        (finalizeGo P mint_pub_key (idx + 1) rest).map
          (fun l => (p.1, ⟨⟨p.2.nonce, sig⟩, p.2.spend_key⟩) :: l)
      else
        .error (.InvalidSignature idx)

/-- Rust `IssuanceRequest::finalize`: structural-equality precheck
(`WrongMintAnswer` on mismatch), then the indexed verification loop over the
positional pairs, collected back into a `Coins` container. -/
def IssuanceRequest.finalize (P : Primitives) (self : IssuanceRequest) (bsigs : SigResponse)
    (mint_pub_key : Keys Nat) : Except CoinFinalizationError (Coins SpendableCoin) :=
  if self.coins.structural_eq bsigs then
    (finalizeGo P mint_pub_key 0 (self.coins.iter.zip bsigs.iter)).map Coins.ofList
  else
    .error .WrongMintAnswer

/-- Modelled from the spec: the client-visible state of the external storage
engine, restricted to the two record kinds this client writes — pending
issuances keyed by `TransactionId` and owned coins keyed by
`(amount, nonce)`. -/
structure Store where
  pending : List (TransactionId × IssuanceRequest)
  coins : List ((Amount × CoinNonce) × SpendableCoin)
deriving DecidableEq, Repr

/-- The batch items `fetch_all` builds: `InsertNewElement` of an owned coin and
`DeleteElement` of a pending-issuance key. -/
inductive BatchItem where
  | insertCoin (amount : Amount) (nonce : CoinNonce) (coin : SpendableCoin)
  | deleteIssuance (id : TransactionId)
deriving DecidableEq, Repr

/-- Modelled from the spec: applying one batch item to the store — insert
appends the owned-coin record, delete removes the pending record with the given
id. -/
def applyItem (s : Store) : BatchItem → Store
  | .insertCoin a n c => { s with coins := s.coins ++ [((a, n), c)] }
  | .deleteIssuance id => { s with pending := s.pending.filter (fun p => p.1 ≠ id) }

/-- Modelled from the spec: `apply_batch` — "one atomic batch"; all items are
applied together (all-or-nothing is the engine's contract). -/
def Store.applyBatch (s : Store) (items : List BatchItem) : Store :=
  items.foldl applyItem s

/-- The pending-issuance ids a batch deletes, in order. -/
def deleteIds (items : List BatchItem) : List TransactionId :=
  items.filterMap (fun i =>
    match i with
    | .deleteIssuance id => some id
    | .insertCoin _ _ _ => none)

/-- The keyed owned-coin records a batch inserts, in order. -/
def insertedCoins (items : List BatchItem) : List ((Amount × CoinNonce) × SpendableCoin) :=
  items.filterMap (fun i =>
    match i with
    | .insertCoin a n c => some ((a, n), c)
    | .deleteIssuance _ => none)

/-- Rust `ClientConfig`: the configured mint endpoint urls (urls modelled as `Nat`)
and the federation's per-tier aggregate public keys. -/
structure ClientConfig where
  mints : List Nat
  mint_pk : Keys Nat
deriving Repr

/-- The network-visible behaviour of one mint endpoint during the peg-in
broadcast: unreachable (transport error — `send()` returns `Err`) or an HTTP
response with the given status code. -/
inductive MintBehavior where
  | unreachable
  | status (code : Nat)
deriving DecidableEq, Repr

/-- The outcome of `peg_in`, with Rust panics (`expect`) as a distinguished
constructor. -/
inductive PegOutcome where
  | panicked
  | errored (e : ClientError)
  | ok (id : TransactionId)
deriving DecidableEq, Repr

/-- Observable effects of `peg_in`, in program order: the pending-record
insert and each network contact of a mint url. -/
inductive Event where
  | dbInsert (id : TransactionId)
  | contact (url : Nat)
deriving DecidableEq, Repr

/-- The broadcast loop of `peg_in` over the randomly permuted mint list:
contact each mint in turn (`PUT /issuance/pegin`); a transport error panics
(`.expect("API error")`); a `StatusCode::OK` (200) response counts as a
success; stop early once `successes >= 2`; after the loop, zero successes is
`ClientError::MintError`, otherwise the request id is returned.  Also returns
the list of contact events the loop performed. -/
def pegInGo (reqId : TransactionId) (beh : Nat → MintBehavior) :
    List Nat → Nat → PegOutcome × List Event
  | [], successes =>
    (if successes = 0 then .errored .MintError else .ok reqId, [])
  | u :: rest, successes =>
    match beh u with
    | .unreachable => (.panicked, [.contact u])
    | .status code =>
      let s := if code = 200 then successes + 1 else successes
      if 2 ≤ s then (.ok reqId, [.contact u])
      else
        let r := pegInGo reqId beh rest s
        (r.1, .contact u :: r.2)

/-- The id `peg_in` computes for its request: `req.id()` of the `PegInRequest`
wrapping the freshly generated `SignRequest`. -/
def pegInReqId (P : Primitives) (cfg : ClientConfig) (amount : Nat) (rng : Nat → Nat) :
    TransactionId :=
  P.txId (IssuanceRequest.new P amount cfg.mint_pk rng).2

/-- Rust `MintClient::peg_in`: generate the issuance request and sign request,
insert the pending-issuance record keyed by the request id into the store,
then broadcast to the mints.  `order` is the output of
`mints.choose_multiple(rng, mints.len())` — the configured mint urls in a
random permutation; `beh` is each url's network behaviour.  Returns the
outcome, the resulting store, and the trace of observable events in program
order. -/
def MintClient.peg_in (P : Primitives) (cfg : ClientConfig) (amount : Nat)
    (rng : Nat → Nat) (order : List Nat) (beh : Nat → MintBehavior) (store : Store) :
    PegOutcome × Store × List Event :=
  let gen := IssuanceRequest.new P amount cfg.mint_pk rng
  let reqId := P.txId gen.2
  let storeAfter : Store := { store with pending := store.pending ++ [(reqId, gen.1)] }
  let run := pegInGo reqId beh order 0
  (run.1, storeAfter, .dbInsert reqId :: run.2)

/-- The outcome of `fetch_all`, with the `expect` panic on an empty mint list
as a distinguished constructor. -/
inductive FetchOutcome where
  | panicked
  | errored (e : ClientError)
  | ok (ids : List TransactionId)
deriving DecidableEq, Repr

/-- The per-issuance body of `fetch_all`: query the chosen mint
(`GET /issuance/{id}`) and finalize the response.  `resp id` is `some sig`
when the mint is reachable, answers `200 OK` and the body parses as a
`SigResponse`; any transport error, non-OK status or parse failure is
`ClientError::MintError`. -/
def queryFinalize (P : Primitives) (mint_pub_key : Keys Nat)
    (resp : TransactionId → Option SigResponse) (id : TransactionId)
    (issuance : IssuanceRequest) : Except ClientError (Coins SpendableCoin) :=
  match resp id with
  | none => .error .MintError
  | some sig =>
    match issuance.finalize P sig mint_pub_key with
    | .error e => .error (.FinalizationError e)
    | .ok coins => .ok coins

/-- Sequencing a list of results, returning the first error — the semantics of
Rust's `collect::<Result<Vec<_>, _>>` over the joined futures. -/
def sequenceExcept {E A : Type} : List (Except E A) → Except E (List A)
  | [] => .ok []
  | .error e :: _ => .error e
  | .ok a :: rest => (sequenceExcept rest).map (fun l => a :: l)

/-- The list of per-issuance results `fetch_all` collects: one
query-and-finalize result per pending issuance from the prefix scan, each
tagged with its `TransactionId`. -/
def fetchResults (P : Primitives) (cfg : ClientConfig) (store : Store)
    (resp : TransactionId → Option SigResponse) :
    List (Except ClientError (TransactionId × Coins SpendableCoin)) :=
  store.pending.map
    (fun p => (queryFinalize P cfg.mint_pk resp p.1 p.2).map (fun c => (p.1, c)))

/-- The redeem batch `fetch_all` builds from the successfully fetched
issuances: for each one, an insert per finalized coin keyed by
`(amount, nonce)` followed by the delete of its pending-issuance record. -/
def redeemBatch (fetched : List (TransactionId × Coins SpendableCoin)) : List BatchItem :=
  fetched.flatMap
    (fun f =>
      f.2.iter.map (fun ac => BatchItem.insertCoin ac.1 ac.2.coin.nonce ac.2) ++
        [BatchItem.deleteIssuance f.1])

/-- Rust `MintClient::fetch_all`: pick one mint (`choose(rng).expect` — panics when
the configured mint list is empty), run the query-and-finalize body for every
pending issuance, propagate the first error (`?` on the collected results)
leaving the store untouched, and otherwise apply the single redeem batch and
return the redeemed ids. -/
def MintClient.fetch_all (P : Primitives) (cfg : ClientConfig) (store : Store)
    (resp : TransactionId → Option SigResponse) : FetchOutcome × Store :=
  match cfg.mints with
  | [] => (.panicked, store)
  | _ :: _ =>
    match sequenceExcept (fetchResults P cfg store resp) with
    | .error e => (.errored e, store)
    | .ok fetched =>
      (.ok (fetched.map (fun f => f.1)), store.applyBatch (redeemBatch fetched))

deriving instance DecidableEq for Except

/-- The tier lookup and verification outcome `finalize` computes for one
positional pair: `none` when the tier has no public key, otherwise the result
of verifying the unblinded signature.  Used to state which position fails
first. -/
def verifiesAt (P : Primitives) (mpk : Keys Nat)
    (p : (Amount × CoinRequest) × (Amount × Nat)) : Option Bool :=
  (Keys.tier mpk p.1.1).map
    (fun key => P.verify p.1.2.nonce (P.unblind p.1.2.blinding_key p.2.2) key)

/-- A concrete instantiation of the trusted cryptographic collaborators, used
to evaluate the client operations on concrete inputs: a coin verifies unless
its nonce is `[1]`. -/
def TestPrims : Primitives where
  toPublic r := [r]
  nonceToMessage n := n.headI
  blindMessage m := (m, m + 1)
  unblind bk bs := bk + bs
  verify nonce _sig _key := decide (nonce ≠ [1])
  txId c := [c.iter.length]

/-- A one-coin issuance request whose coin (nonce `[0]`) verifies under
`TestPrims`. -/
def isrGood : IssuanceRequest := ⟨⟨[(1, [⟨0, [0], 0⟩])]⟩⟩

/-- A one-coin issuance request whose coin (nonce `[1]`) fails verification
under `TestPrims`. -/
def isrBad : IssuanceRequest := ⟨⟨[(1, [⟨1, [1], 0⟩])]⟩⟩

/-- A client configuration with one mint and one tier key. -/
def cfg0 : ClientConfig := ⟨[0], [(1, 99)]⟩

/-- A client configuration with an empty mint list. -/
def cfgNoMints : ClientConfig := ⟨[], [(1, 99)]⟩

/-- An empty store. -/
def storeEmpty : Store := ⟨[], []⟩

/-- A store with one pending issuance that will finalize successfully. -/
def store1 : Store := ⟨[([1], isrGood)], []⟩

/-- A store with two pending issuances: one finalizes successfully, one fails
verification. -/
def store2 : Store := ⟨[([1], isrGood), ([2], isrBad)], []⟩

/-- A mint that answers every issuance query with a one-signature response of
tier 1. -/
def respConst : TransactionId → Option SigResponse := fun _ => some ⟨[(1, [5])]⟩

/-- The coin `store1`'s issuance finalizes to under `TestPrims` and
`respConst`. -/
def spendable0 : SpendableCoin := ⟨⟨[0], 5⟩, 0⟩

/-- The fetched list `fetch_all` collects on `store1` under `TestPrims` and
`respConst`. -/
def fetched0 : List (TransactionId × Coins SpendableCoin) := [([1], ⟨[(1, [spendable0])]⟩)]

/-- A two-coin issuance request (tier 1, nonces `[0]` and `[1]`): under
`TestPrims` the first coin verifies and the second fails. -/
def isrTwo : IssuanceRequest := ⟨⟨[(1, [⟨0, [0], 0⟩, ⟨1, [1], 0⟩])]⟩⟩

/-- A structurally matching two-signature response for `isrTwo`. -/
def sigTwo : SigResponse := ⟨[(1, [5, 6])]⟩

/-- Every mint answers with HTTP 200. -/
def behAll200 : Nat → MintBehavior := fun _ => .status 200

/-- Every mint answers with HTTP 204 (a success status that is not 200). -/
def behAll204 : Nat → MintBehavior := fun _ => .status 204

/-- Every mint is unreachable at the transport level. -/
def behAllDown : Nat → MintBehavior := fun _ => .unreachable

theorem beBytes_length (w n : Nat) : (beBytes w n).length = w := by
  induction w generalizing n with
  | zero => rfl
  | succ w ih => simp [beBytes, ih]

theorem fromBeBytes_beBytes_aux (w : Nat) :
    ∀ acc n, n < 256 ^ w → (beBytes w n).foldl (fun a b => a * 256 + b) acc = acc * 256 ^ w + n := by
  induction w with
  | zero => intro acc n h; interval_cases n; simp [beBytes]
  | succ w ih =>
    intro acc n h
    have hdiv : n / 256 ^ w < 256 := by
      have : n < 256 ^ w * 256 := by
        calc n < 256 ^ (w + 1) := h
        _ = 256 ^ w * 256 := by ring
      exact Nat.div_lt_of_lt_mul this
    have hmod : n / 256 ^ w % 256 = n / 256 ^ w := Nat.mod_eq_of_lt hdiv
    simp only [beBytes, List.foldl_cons]
    rw [ih _ _ (Nat.mod_lt _ (Nat.pos_pow_of_pos w (by norm_num)))]
    rw [hmod]
    have := Nat.div_add_mod n (256 ^ w)
    calc (acc * 256 + n / 256 ^ w) * 256 ^ w + n % 256 ^ w
        = acc * (256 ^ w * 256) + (256 ^ w * (n / 256 ^ w) + n % 256 ^ w) := by ring
    _ = acc * 256 ^ (w + 1) + n := by rw [this]; ring

theorem fromBeBytes_beBytes (w n : Nat) (h : n < 256 ^ w) :
    fromBeBytes (beBytes w n) = n := by
  have := fromBeBytes_beBytes_aux w 0 n h
  simpa [fromBeBytes] using this

theorem lexLt_cons_same (a : Nat) (xs ys : List Nat) :
    lexLt (a :: xs) (a :: ys) = lexLt xs ys := by
  simp [lexLt]

theorem lexLt_append : ∀ (xs ys u v : List Nat), xs.length = ys.length →
    lexLt xs ys = true → lexLt (xs ++ u) (ys ++ v) = true := by
  intro xs
  induction xs with
  | nil =>
    intro ys u v hlen h
    cases ys with
    | nil => simp [lexLt] at h
    | cons b bs => simp at hlen
  | cons a as_ ih =>
    intro ys u v hlen h
    cases ys with
    | nil => simp at hlen
    | cons b bs =>
      simp only [List.cons_append, lexLt, Bool.or_eq_true, Bool.and_eq_true,
        decide_eq_true_eq] at h ⊢
      rcases h with h | ⟨rfl, h⟩
      · exact Or.inl h
      · exact Or.inr ⟨rfl, ih bs u v (by simpa using hlen) h⟩

theorem beBytes_lexLt : ∀ w a b, a < b → b < 256 ^ w →
    lexLt (beBytes w a) (beBytes w b) = true := by
  intro w
  induction w with
  | zero =>
    intro a b hab hb
    simp at hb
    omega
  | succ w ih =>
    intro a b hab hb
    have hpow : (0 : Nat) < 256 ^ w := Nat.pos_pow_of_pos w (by norm_num)
    have hb' : b < 256 ^ w * 256 := by
      calc b < 256 ^ (w + 1) := hb
      _ = 256 ^ w * 256 := by ring
    have hbd : b / 256 ^ w < 256 := Nat.div_lt_of_lt_mul hb'
    have had : a / 256 ^ w < 256 := Nat.div_lt_of_lt_mul (lt_trans hab hb')
    simp only [beBytes, Nat.mod_eq_of_lt had, Nat.mod_eq_of_lt hbd]
    have hle : a / 256 ^ w ≤ b / 256 ^ w := Nat.div_le_div_right (le_of_lt hab)
    rcases lt_or_eq_of_le hle with hlt | heq
    · simp [lexLt, hlt]
    · have hmoda := Nat.div_add_mod a (256 ^ w)
      have hmodb := Nat.div_add_mod b (256 ^ w)
      rw [heq] at hmoda
      have hmlt : a % 256 ^ w < b % 256 ^ w := by omega
      simp only [lexLt, heq, Bool.or_eq_true, Bool.and_eq_true, decide_eq_true_eq]
      exact Or.inr ⟨True.intro, ih _ _ hmlt (Nat.mod_lt _ hpow)⟩

/-- C6: Key encoding round trip and typed decode errors: encoding followed by
decoding is the identity for every valid pending-issuance id (32 bytes) and
every `(amount, nonce)` pair with a `u64` amount; decoding a buffer of wrong
length (≠ 33 bytes for `IssuanceKey`, < 9 bytes for `CoinKey`) or with a wrong
leading prefix byte returns a typed `DecodingError` (the decoders are total, so
they never panic); and the layouts are exactly
`0x21 || 32-byte id` and `0x20 || 8-byte big-endian amount || nonce bytes`. -/
theorem key_encoding_round_trip :
    (∀ id : TransactionId, id.length = 32 →
      IssuanceKey.from_bytes (IssuanceKey.to_bytes ⟨id⟩) = .ok ⟨id⟩) ∧
    (∀ (a : Amount) (n : CoinNonce), a < 2 ^ 64 →
      CoinKey.from_bytes (CoinKey.to_bytes ⟨a, n⟩) = .ok ⟨a, n⟩) ∧
    (∀ data : List Nat, data.length ≠ 33 →
      ∃ e, IssuanceKey.from_bytes data = .error e) ∧
    (∀ (b : Nat) (rest : List Nat), (b :: rest).length = 33 → b ≠ 0x21 →
      ∃ e, IssuanceKey.from_bytes (b :: rest) = .error e) ∧
    (∀ data : List Nat, data.length < 9 →
      ∃ e, CoinKey.from_bytes data = .error e) ∧
    (∀ (b : Nat) (rest : List Nat), 9 ≤ (b :: rest).length → b ≠ 0x20 →
      ∃ e, CoinKey.from_bytes (b :: rest) = .error e) ∧
    (∀ id : TransactionId, IssuanceKey.to_bytes ⟨id⟩ = 0x21 :: id) ∧
    (∀ (a : Amount) (n : CoinNonce), a < 2 ^ 64 →
      CoinKey.to_bytes ⟨a, n⟩ = 0x20 :: (beBytes 8 a ++ n)) := by
  refine ⟨?_, ?_, ?_, ?_, ?_, ?_, ?_, ?_⟩
  · intro id h
    simp only [IssuanceKey.to_bytes, IssuanceKey.from_bytes]
    rw [if_neg (by simp [h]), if_neg (by simp)]
  · intro a n h
    have hm : a % 2 ^ 64 = a := Nat.mod_eq_of_lt h
    have hlen : (beBytes 8 a).length = 8 := beBytes_length 8 a
    have hfit : a < 256 ^ 8 := lt_of_lt_of_eq h (by norm_num)
    simp only [CoinKey.to_bytes, hm, CoinKey.from_bytes]
    rw [if_neg (by simp only [List.length_cons, List.length_append, hlen]; omega)]
    rw [if_neg (by simp [DB_PREFIX_COIN])]
    rw [List.take_left' hlen, List.drop_left' hlen, fromBeBytes_beBytes 8 a hfit]
  · intro data h
    refine ⟨⟨"IssuanceKey: expected 33 bytes"⟩, ?_⟩
    cases data with
    | nil => rfl
    | cons b rest =>
      simp only [IssuanceKey.from_bytes]
      rw [if_pos h]
  · intro b rest hlen hb
    refine ⟨⟨"IssuanceKey: wrong prefix"⟩, ?_⟩
    simp only [IssuanceKey.from_bytes]
    rw [if_neg (by simp [hlen]), if_pos (by simpa [DB_PREFIX_ISSUANCE] using hb)]
  · intro data h
    refine ⟨⟨"CoinKey: expected at least 9 bytes"⟩, ?_⟩
    cases data with
    | nil => rfl
    | cons b rest =>
      simp only [CoinKey.from_bytes]
      rw [if_pos h]
  · intro b rest hlen hb
    refine ⟨⟨"CoinKey: wrong prefix"⟩, ?_⟩
    simp only [CoinKey.from_bytes]
    rw [if_neg (Nat.not_lt_of_le hlen), if_pos (by simpa [DB_PREFIX_COIN] using hb)]
  · intro id
    rfl
  · intro a n h
    simp only [CoinKey.to_bytes, Nat.mod_eq_of_lt h]
    rfl

theorem key_encoding_round_trip_witness :
    IssuanceKey.from_bytes (IssuanceKey.to_bytes ⟨List.replicate 32 7⟩) =
      .ok ⟨List.replicate 32 7⟩ ∧
    CoinKey.from_bytes (CoinKey.to_bytes ⟨5, [9, 9]⟩) = .ok ⟨5, [9, 9]⟩ ∧
    (∃ e, IssuanceKey.from_bytes [] = .error e) ∧
    (∃ e, IssuanceKey.from_bytes (0 :: List.replicate 32 7) = .error e) ∧
    (∃ e, CoinKey.from_bytes [3] = .error e) ∧
    (∃ e, CoinKey.from_bytes (0 :: List.replicate 10 1) = .error e) ∧
    IssuanceKey.to_bytes ⟨List.replicate 32 7⟩ = 0x21 :: List.replicate 32 7 ∧
    CoinKey.to_bytes ⟨5, [9, 9]⟩ = 0x20 :: (beBytes 8 5 ++ [9, 9]) :=
  ⟨key_encoding_round_trip.1 _ (by simp),
   key_encoding_round_trip.2.1 5 [9, 9] (by norm_num),
   key_encoding_round_trip.2.2.1 [] (by decide),
   key_encoding_round_trip.2.2.2.1 0 (List.replicate 32 7) (by simp) (by decide),
   key_encoding_round_trip.2.2.2.2.1 [3] (by decide),
   key_encoding_round_trip.2.2.2.2.2.1 0 (List.replicate 10 1) (by simp) (by decide),
   key_encoding_round_trip.2.2.2.2.2.2.1 _,
   key_encoding_round_trip.2.2.2.2.2.2.2 5 [9, 9] (by norm_num)⟩

/-- C7: Lexicographic order of coin keys tracks numeric amount order: for any
two owned-coin keys with `u64` amounts `a1 < a2` and arbitrary nonces, the
encoded byte sequence of the `a1` key is lexicographically smaller than that of
the `a2` key. -/
theorem coin_key_lex_order (a1 a2 : Amount) (n1 n2 : CoinNonce)
    (h12 : a1 < a2) (h2 : a2 < 2 ^ 64) :
    lexLt (CoinKey.to_bytes ⟨a1, n1⟩) (CoinKey.to_bytes ⟨a2, n2⟩) = true := by
  have h1 : a1 < 2 ^ 64 := lt_trans h12 h2
  have hfit : a2 < 256 ^ 8 := lt_of_lt_of_eq h2 (by norm_num)
  simp only [CoinKey.to_bytes, Nat.mod_eq_of_lt h1, Nat.mod_eq_of_lt h2]
  rw [lexLt_cons_same]
  exact lexLt_append _ _ _ _ (by rw [beBytes_length, beBytes_length])
    (beBytes_lexLt 8 a1 a2 h12 hfit)

theorem coin_key_lex_order_witness :
    lexLt (CoinKey.to_bytes ⟨1, [255]⟩) (CoinKey.to_bytes ⟨2, []⟩) = true :=
  coin_key_lex_order 1 2 [255] [] (by norm_num) (by norm_num)

theorem sequenceExcept_error_of_mem {E A : Type} :
    ∀ l : List (Except E A), (∃ r ∈ l, ∃ e, r = .error e) →
    ∃ e, sequenceExcept l = .error e := by
  intro l
  induction l with
  | nil =>
    rintro ⟨r, hr, _⟩
    simp at hr
  | cons r rest ih =>
    rintro ⟨s, hs, e, rfl⟩
    rcases List.mem_cons.mp hs with heq | hmem
    · exact ⟨e, by rw [← heq]; rfl⟩
    · cases r with
      | error e0 => exact ⟨e0, rfl⟩
      | ok a =>
        obtain ⟨e1, hseq⟩ := ih ⟨.error e, hmem, e, rfl⟩
        exact ⟨e1, by simp [sequenceExcept, hseq, Except.map]⟩

/-- C10: `fetch_all` requires a non-empty configured mint list: when
`cfg.mints` is empty, the `choose(...).expect("We need at least one mint")`
panics (process abort) instead of returning a typed `ClientError`, and the
store is untouched. -/
theorem fetch_all_empty_mints_panics
    (P : Primitives) (cfg : ClientConfig) (store : Store)
    (resp : TransactionId → Option SigResponse) (h : cfg.mints = []) :
    MintClient.fetch_all P cfg store resp = (.panicked, store) := by
  unfold MintClient.fetch_all
  rw [h]

theorem fetch_all_empty_mints_panics_witness :
    MintClient.fetch_all TestPrims cfgNoMints store1 respConst = (.panicked, store1) :=
  fetch_all_empty_mints_panics TestPrims cfgNoMints store1 respConst rfl

/-- C1: Atomicity of the fetch/redeem flow on failure: whenever any
per-issuance mint query fails or any finalization returns an error, `fetch_all`
returns the first such error and leaves the store unchanged — no coin record is
inserted and no pending-issuance record is deleted. -/
theorem fetch_all_error_atomic
    (P : Primitives) (cfg : ClientConfig) (store : Store)
    (resp : TransactionId → Option SigResponse)
    (hm : cfg.mints ≠ [])
    (herr : ∃ r ∈ fetchResults P cfg store resp, ∃ e, r = .error e) :
    ∃ e, sequenceExcept (fetchResults P cfg store resp) = .error e ∧
      MintClient.fetch_all P cfg store resp = (.errored e, store) := by
  obtain ⟨e, hseq⟩ := sequenceExcept_error_of_mem _ herr
  refine ⟨e, hseq, ?_⟩
  unfold MintClient.fetch_all
  cases hcm : cfg.mints with
  | nil => exact absurd hcm hm
  | cons m ms => rw [hseq]

theorem fetch_all_error_atomic_witness :
    ∃ e, sequenceExcept (fetchResults TestPrims cfg0 store2 respConst) = .error e ∧
      MintClient.fetch_all TestPrims cfg0 store2 respConst = (.errored e, store2) :=
  fetch_all_error_atomic TestPrims cfg0 store2 respConst (by decide)
    ⟨.error (.FinalizationError (.InvalidSignature 0)), by decide,
      .FinalizationError (.InvalidSignature 0), rfl⟩

/-- C4: Finalize structural precheck: for every `IssuanceRequest` and every
`SigResponse` that is not structurally equal to it, `finalize` returns
`CoinFinalizationError::WrongMintAnswer` and produces no output coins (the
result holds for every choice of cryptographic primitives, so no unblinding or
verification outcome can influence it). -/
theorem finalize_wrong_mint_answer
    (P : Primitives) (self : IssuanceRequest) (bsigs : SigResponse) (mpk : Keys Nat)
    (h : ¬ self.coins.structural_eq bsigs) :
    IssuanceRequest.finalize P self bsigs mpk = .error .WrongMintAnswer := by
  unfold IssuanceRequest.finalize
  rw [if_neg h]

theorem finalize_wrong_mint_answer_witness :
    IssuanceRequest.finalize TestPrims isrGood ⟨[(2, [5])]⟩ [(1, 99)] =
      .error .WrongMintAnswer :=
  finalize_wrong_mint_answer TestPrims isrGood ⟨[(2, [5])]⟩ [(1, 99)] (by decide)

theorem finalizeGo_error_at (P : Primitives) (mpk : Keys Nat) :
    ∀ (l : List ((Amount × CoinRequest) × (Amount × Nat))) (k idx : Nat)
      (pk : (Amount × CoinRequest) × (Amount × Nat)),
    l.get? k = some pk →
    (∀ p ∈ l.take k, verifiesAt P mpk p = some true) →
    verifiesAt P mpk pk = some false →
    finalizeGo P mpk idx l = .error (.InvalidSignature (idx + k)) := by
  intro l
  induction l with
  | nil =>
    intro k idx pk hk
    simp at hk
  | cons p rest ih =>
    intro k idx pk hk hsucc hfail
    obtain ⟨pa, pb⟩ := p
    cases k with
    | zero =>
      simp only [List.get?] at hk
      injection hk with hk
      subst hk
      unfold verifiesAt at hfail
      cases htier : Keys.tier mpk pa.1 with
      | none => rw [htier] at hfail; simp [Option.map] at hfail
      | some key =>
        rw [htier] at hfail
        simp only [Option.map, Option.some.injEq] at hfail
        simp [finalizeGo, htier, hfail]
    | succ k =>
      simp only [List.get?] at hk
      have hp := hsucc (pa, pb) (by simp [List.take])
      unfold verifiesAt at hp
      cases htier : Keys.tier mpk pa.1 with
      | none => rw [htier] at hp; simp [Option.map] at hp
      | some key =>
        rw [htier] at hp
        simp only [Option.map, Option.some.injEq] at hp
        have hrec := ih k (idx + 1) pk hk
          (fun q hq => hsucc q (by simp [List.take, hq])) hfail
        have harith : idx + 1 + k = idx + (k + 1) := by omega
        simp [finalizeGo, htier, hp, hrec, Except.map, harith]

/-- C3: Finalize fail-fast on bad signatures: for every `IssuanceRequest`,
every structurally equal `SigResponse`, and every position `k` in range, if the
tier lookups and signature verifications succeed at every position before `k`
and verification fails at `k`, then `finalize` returns
`CoinFinalizationError::InvalidSignature k` and produces no partial coin
list. -/
theorem finalize_invalid_signature_fail_fast
    (P : Primitives) (self : IssuanceRequest) (bsigs : SigResponse) (mpk : Keys Nat)
    (k : Nat) (pk : (Amount × CoinRequest) × (Amount × Nat))
    (hstruct : self.coins.structural_eq bsigs)
    (hk : (self.coins.iter.zip bsigs.iter).get? k = some pk)
    (hsucc : ∀ p ∈ (self.coins.iter.zip bsigs.iter).take k, verifiesAt P mpk p = some true)
    (hfail : verifiesAt P mpk pk = some false) :
    IssuanceRequest.finalize P self bsigs mpk = .error (.InvalidSignature k) := by
  unfold IssuanceRequest.finalize
  rw [if_pos hstruct, finalizeGo_error_at P mpk _ k 0 pk hk hsucc hfail]
  simp [Except.map]

theorem finalize_invalid_signature_fail_fast_witness :
    IssuanceRequest.finalize TestPrims isrTwo sigTwo [(1, 99)] =
      .error (.InvalidSignature 1) :=
  finalize_invalid_signature_fail_fast TestPrims isrTwo sigTwo [(1, 99)] 1
    ((1, ⟨1, [1], 0⟩), (1, 6)) (by decide) (by decide) (by decide) (by decide)

/-- C8: Write-ahead ordering of peg-in: in every execution of `peg_in`, the
pending-issuance record keyed by the request's `TransactionId` is inserted into
the store (first event of the trace) strictly before any mint is contacted over
the network, and the store resulting from the insert holds the pending
record. -/
theorem peg_in_write_ahead
    (P : Primitives) (cfg : ClientConfig) (amount : Nat) (rng : Nat → Nat)
    (order : List Nat) (beh : Nat → MintBehavior) (store : Store) :
    (MintClient.peg_in P cfg amount rng order beh store).2.2.get? 0 =
      some (.dbInsert (pegInReqId P cfg amount rng)) ∧
    (∀ j u, (MintClient.peg_in P cfg amount rng order beh store).2.2.get? j =
      some (.contact u) → 0 < j) ∧
    (MintClient.peg_in P cfg amount rng order beh store).2.1.pending =
      store.pending ++ [(pegInReqId P cfg amount rng,
        (IssuanceRequest.new P amount cfg.mint_pk rng).1)] := by
  refine ⟨rfl, ?_, rfl⟩
  intro j u hj
  cases j with
  | zero =>
    have h0 : (MintClient.peg_in P cfg amount rng order beh store).2.2.get? 0 =
        some (.dbInsert (pegInReqId P cfg amount rng)) := rfl
    rw [h0] at hj
    exact absurd (Option.some.inj hj) (by simp)
  | succ j => exact Nat.succ_pos j

theorem peg_in_write_ahead_witness :
    (MintClient.peg_in TestPrims cfg0 1 (fun n => n) [5] behAll200 storeEmpty).2.2.get? 0 =
      some (.dbInsert (pegInReqId TestPrims cfg0 1 (fun n => n))) ∧ 0 < 1 :=
  ⟨(peg_in_write_ahead TestPrims cfg0 1 (fun n => n) [5] behAll200 storeEmpty).1,
   (peg_in_write_ahead TestPrims cfg0 1 (fun n => n) [5] behAll200 storeEmpty).2.1 1 5
     (by decide)⟩

theorem insertOne_map {A B : Type} (f : A → B) :
    ∀ (l : List (Amount × List A)) (a : Amount) (t : A),
    Coins.insertOne (l.map (fun p => (p.1, p.2.map f))) a (f t) =
      (Coins.insertOne l a t).map (fun p => (p.1, p.2.map f)) := by
  intro l
  induction l with
  | nil => intro a t; simp [Coins.insertOne]
  | cons p rest ih =>
    intro a t
    obtain ⟨pa, pl⟩ := p
    simp only [List.map_cons, Coins.insertOne]
    by_cases h1 : a = pa
    · simp [h1]
    · by_cases h2 : a < pa
      · simp [h1, h2]
      · simp [h1, h2, ih]

theorem ofList_foldl_map {A B : Type} (f : A → B) :
    ∀ (l : List (Amount × A)) (acc : List (Amount × List A)),
    (l.map (fun p => (p.1, f p.2))).foldl (fun c p => Coins.insertOne c p.1 p.2)
        (acc.map (fun p => (p.1, p.2.map f))) =
      (l.foldl (fun c p => Coins.insertOne c p.1 p.2) acc).map
        (fun p => (p.1, p.2.map f)) := by
  intro l
  induction l with
  | nil => intro acc; rfl
  | cons p rest ih =>
    intro acc
    simp only [List.map_cons, List.foldl_cons]
    rw [insertOne_map f acc p.1 p.2]
    exact ih _

theorem ofList_map {A B : Type} (f : A → B) (l : List (Amount × A)) :
    Coins.ofList (l.map (fun p => (p.1, f p.2))) = Coins.mapItems f (Coins.ofList l) := by
  unfold Coins.ofList Coins.mapItems
  exact congrArg Coins.mk (ofList_foldl_map f l [])

theorem mapItems_shape {A B : Type} (f : A → B) (c : Coins A) :
    (Coins.mapItems f c).shape = c.shape := by
  unfold Coins.mapItems Coins.shape
  simp [List.map_map, Function.comp]

theorem mapItems_iter {A B : Type} (f : A → B) (c : Coins A) :
    (Coins.mapItems f c).iter = c.iter.map (fun p => (p.1, f p.2)) := by
  unfold Coins.mapItems Coins.iter
  induction c.coins with
  | nil => rfl
  | cons p rest ih => simp [List.map_map, Function.comp, ih]

/-- C5: Positional alignment of issuance generation: for every amount, tier
table and randomness source, `IssuanceRequest::new` returns an
`IssuanceRequest` and a `SignRequest` that are structurally equal, and the
blinded message at each position of the `SignRequest` is the blinding of the
nonce held by the `CoinRequest` at the same position of the
`IssuanceRequest`. -/
theorem issuance_new_positional_alignment {K : Type} (P : Primitives) (amount : Nat)
    (amount_tiers : Keys K) (rng : Nat → Nat) :
    (IssuanceRequest.new P amount amount_tiers rng).1.coins.structural_eq
      (IssuanceRequest.new P amount amount_tiers rng).2 ∧
    (IssuanceRequest.new P amount amount_tiers rng).2.iter =
      (IssuanceRequest.new P amount amount_tiers rng).1.coins.iter.map
        (fun p => (p.1, (P.blindMessage (P.nonceToMessage p.2.nonce)).2)) ∧
    (∀ i a cr,
      (IssuanceRequest.new P amount amount_tiers rng).1.coins.iter.get? i = some (a, cr) →
      (IssuanceRequest.new P amount amount_tiers rng).2.iter.get? i =
        some (a, (P.blindMessage (P.nonceToMessage cr.nonce)).2)) := by
  have key : (IssuanceRequest.new P amount amount_tiers rng).2 =
      Coins.mapItems (fun cr => (P.blindMessage (P.nonceToMessage cr.nonce)).2)
        (IssuanceRequest.new P amount amount_tiers rng).1.coins := by
    simp only [IssuanceRequest.new]
    rw [← ofList_map]
    congr 1
    simp only [List.map_map]
    apply List.map_congr_left
    intro q hq
    simp [CoinRequest.new, Function.comp]
  refine ⟨?_, ?_, ?_⟩
  · unfold Coins.structural_eq
    rw [key, mapItems_shape]
  · rw [key, mapItems_iter]
  · intro i a cr h
    rw [key, mapItems_iter, List.get?_map, h]
    rfl

theorem issuance_new_positional_alignment_witness :
    (IssuanceRequest.new TestPrims 3 ([(1, 0)] : Keys Nat) (fun n => n)).1.coins.structural_eq
      (IssuanceRequest.new TestPrims 3 ([(1, 0)] : Keys Nat) (fun n => n)).2 ∧
    (IssuanceRequest.new TestPrims 3 ([(1, 0)] : Keys Nat) (fun n => n)).2.iter.get? 0 =
      some (1, (TestPrims.blindMessage
        (TestPrims.nonceToMessage (⟨0, [0], 0⟩ : CoinRequest).nonce)).2) :=
  ⟨(issuance_new_positional_alignment TestPrims 3 [(1, 0)] (fun n => n)).1,
   (issuance_new_positional_alignment TestPrims 3 [(1, 0)] (fun n => n)).2.2 0 1 ⟨0, [0], 0⟩
     (by decide)⟩

theorem sequenceExcept_eq_ok {E A : Type} :
    ∀ (l : List (Except E A)) (v : List A),
    sequenceExcept l = .ok v → l = v.map Except.ok := by
  intro l
  induction l with
  | nil =>
    intro v h
    simp only [sequenceExcept, Except.ok.injEq] at h
    rw [← h]
    rfl
  | cons r rest ih =>
    intro v h
    cases r with
    | error e => simp [sequenceExcept] at h
    | ok a =>
      simp only [sequenceExcept] at h
      cases hrest : sequenceExcept rest with
      | error e => rw [hrest] at h; simp [Except.map] at h
      | ok vs =>
        rw [hrest] at h
        simp only [Except.map, Except.ok.injEq] at h
        rw [← h]
        simp [ih vs hrest]

theorem fetched_fst_eq (P : Primitives) (mpk : Keys Nat)
    (resp : TransactionId → Option SigResponse) :
    ∀ (pending : List (TransactionId × IssuanceRequest))
      (fetched : List (TransactionId × Coins SpendableCoin)),
    pending.map (fun p => (queryFinalize P mpk resp p.1 p.2).map (fun c => (p.1, c))) =
      fetched.map Except.ok →
    fetched.map (fun f => f.1) = pending.map (fun p => p.1) := by
  intro pending
  induction pending with
  | nil =>
    intro fetched h
    cases fetched with
    | nil => rfl
    | cons f fs => simp at h
  | cons p rest ih =>
    intro fetched h
    cases fetched with
    | nil => simp at h
    | cons f fs =>
      simp only [List.map_cons, List.cons.injEq] at h
      obtain ⟨h1, h2⟩ := h
      have hf : f.1 = p.1 := by
        cases hq : queryFinalize P mpk resp p.1 p.2 with
        | error e => rw [hq] at h1; simp [Except.map] at h1
        | ok c =>
          rw [hq] at h1
          simp only [Except.map, Except.ok.injEq] at h1
          rw [← h1]
      simp [hf, ih fs h2]

theorem applyBatch_coins : ∀ (items : List BatchItem) (s : Store),
    (s.applyBatch items).coins = s.coins ++ insertedCoins items := by
  intro items
  induction items with
  | nil => intro s; simp [Store.applyBatch, insertedCoins]
  | cons i rest ih =>
    intro s
    have hstep : Store.applyBatch s (i :: rest) = Store.applyBatch (applyItem s i) rest := rfl
    rw [hstep, ih]
    cases i with
    | insertCoin a n c => simp [applyItem, insertedCoins, List.filterMap_cons]
    | deleteIssuance id => simp [applyItem, insertedCoins, List.filterMap_cons]

theorem applyBatch_pending : ∀ (items : List BatchItem) (s : Store),
    (s.applyBatch items).pending =
      s.pending.filter (fun p => decide (p.1 ∉ deleteIds items)) := by
  intro items
  induction items with
  | nil => intro s; simp [Store.applyBatch, deleteIds]
  | cons i rest ih =>
    intro s
    have hstep : Store.applyBatch s (i :: rest) = Store.applyBatch (applyItem s i) rest := rfl
    rw [hstep, ih]
    cases i with
    | insertCoin a n c => simp [applyItem, deleteIds, List.filterMap_cons]
    | deleteIssuance id =>
      simp only [applyItem]
      rw [List.filter_filter]
      have hdel : deleteIds (BatchItem.deleteIssuance id :: rest) = id :: deleteIds rest := rfl
      rw [hdel]
      apply List.filter_congr
      intro p hp
      by_cases h1 : p.1 = id <;> by_cases h2 : p.1 ∈ deleteIds rest <;> simp [h1, h2]

theorem deleteIds_redeemBatch :
    ∀ fetched : List (TransactionId × Coins SpendableCoin),
    deleteIds (redeemBatch fetched) = fetched.map (fun f => f.1) := by
  intro fetched
  induction fetched with
  | nil => rfl
  | cons f rest ih =>
    simp only [redeemBatch, List.flatMap_cons, deleteIds, List.filterMap_append] at ih ⊢
    simp [List.filterMap_map, Function.comp, ih]

theorem insertedCoins_append (l1 l2 : List BatchItem) :
    insertedCoins (l1 ++ l2) = insertedCoins l1 ++ insertedCoins l2 := by
  simp [insertedCoins, List.filterMap_append]

theorem insertedCoins_of_inserts (l : List (Amount × SpendableCoin)) :
    insertedCoins (l.map (fun ac => BatchItem.insertCoin ac.1 ac.2.coin.nonce ac.2)) =
      l.map (fun ac => ((ac.1, ac.2.coin.nonce), ac.2)) := by
  induction l with
  | nil => rfl
  | cons x xs ih => simp [insertedCoins, List.filterMap_cons] at ih ⊢; exact ih

theorem insertedCoins_redeemBatch :
    ∀ fetched : List (TransactionId × Coins SpendableCoin),
    insertedCoins (redeemBatch fetched) =
      fetched.flatMap (fun f => f.2.iter.map (fun ac => ((ac.1, ac.2.coin.nonce), ac.2))) := by
  intro fetched
  induction fetched with
  | nil => rfl
  | cons f rest ih =>
    have hcons : redeemBatch (f :: rest) =
        (f.2.iter.map (fun ac => BatchItem.insertCoin ac.1 ac.2.coin.nonce ac.2) ++
          [BatchItem.deleteIssuance f.1]) ++ redeemBatch rest := rfl
    rw [hcons, insertedCoins_append, insertedCoins_append, insertedCoins_of_inserts, ih]
    have hdel : insertedCoins [BatchItem.deleteIssuance f.1] = [] := rfl
    rw [hdel]
    simp [List.flatMap_cons]

/-- C9: Successful redeem commit contents: when every query and finalization in
`fetch_all` succeeds, the single atomic redeem batch is applied — inserting one
owned-coin record per finalized coin keyed by `(amount, nonce)` and deleting
every redeemed issuance's pending record (no pending record survives) — and
`fetch_all` returns the full list of redeemed `TransactionId`s. -/
theorem fetch_all_success_commit
    (P : Primitives) (cfg : ClientConfig) (store : Store)
    (resp : TransactionId → Option SigResponse)
    (fetched : List (TransactionId × Coins SpendableCoin))
    (hm : cfg.mints ≠ [])
    (hseq : sequenceExcept (fetchResults P cfg store resp) = .ok fetched) :
    MintClient.fetch_all P cfg store resp =
      (.ok (store.pending.map (fun p => p.1)), store.applyBatch (redeemBatch fetched)) ∧
    (store.applyBatch (redeemBatch fetched)).pending = [] ∧
    (store.applyBatch (redeemBatch fetched)).coins =
      store.coins ++ fetched.flatMap
        (fun f => f.2.iter.map (fun ac => ((ac.1, ac.2.coin.nonce), ac.2))) := by
  have hlist : fetchResults P cfg store resp = fetched.map Except.ok :=
    sequenceExcept_eq_ok _ _ hseq
  have hids : fetched.map (fun f => f.1) = store.pending.map (fun p => p.1) :=
    fetched_fst_eq P cfg.mint_pk resp store.pending fetched hlist
  refine ⟨?_, ?_, ?_⟩
  · unfold MintClient.fetch_all
    cases hcm : cfg.mints with
    | nil => exact absurd hcm hm
    | cons m ms =>
      rw [hseq]
      simp [hids]
  · rw [applyBatch_pending, deleteIds_redeemBatch, hids]
    refine List.filter_eq_nil.mpr ?_
    intro p hp
    simp only [decide_eq_true_eq, not_not]
    exact List.mem_map_of_mem _ hp
  · rw [applyBatch_coins, insertedCoins_redeemBatch]

theorem fetch_all_success_commit_witness :
    MintClient.fetch_all TestPrims cfg0 store1 respConst =
      (.ok (store1.pending.map (fun p => p.1)), store1.applyBatch (redeemBatch fetched0)) ∧
    (store1.applyBatch (redeemBatch fetched0)).pending = [] ∧
    (store1.applyBatch (redeemBatch fetched0)).coins =
      store1.coins ++ fetched0.flatMap
        (fun f => f.2.iter.map (fun ac => ((ac.1, ac.2.coin.nonce), ac.2))) :=
  fetch_all_success_commit TestPrims cfg0 store1 respConst fetched0 (by decide) (by decide)

theorem pegInGo_reachable (reqId : TransactionId) (beh : Nat → MintBehavior) :
    ∀ (order : List Nat) (s : Nat), (∀ u ∈ order, beh u ≠ .unreachable) →
    (pegInGo reqId beh order s).1 =
      (if 0 < s ∨ ∃ u ∈ order, beh u = .status 200 then .ok reqId
       else .errored .MintError) := by
  intro order
  induction order with
  | nil =>
    intro s h
    by_cases hs : s = 0
    · simp [pegInGo, hs]
    · simp [pegInGo, hs, Nat.pos_of_ne_zero hs]
  | cons u rest ih =>
    intro s h
    have hu : beh u ≠ .unreachable := h u (List.mem_cons_self u rest)
    cases hb : beh u with
    | unreachable => exact absurd hb hu
    | status code =>
      have hrest : ∀ v ∈ rest, beh v ≠ .unreachable :=
        fun v hv => h v (List.mem_cons_of_mem _ hv)
      by_cases hc : code = 200
      · subst hc
        by_cases h2 : 2 ≤ s + 1
        · have hpos : 0 < s := by omega
          simp [pegInGo, hb, h2, hpos]
        · have hrec := ih (s + 1) hrest
          have hpos : 0 < s + 1 := by omega
          simp [pegInGo, hb, h2, hrec, hpos, List.mem_cons]
      · by_cases h2 : 2 ≤ s
        · have hpos : 0 < s := by omega
          simp [pegInGo, hb, hc, h2, hpos]
        · have hrec := ih s hrest
          have hne : beh u ≠ .status 200 := by rw [hb]; simp [hc]
          simp only [pegInGo, hb, if_neg hc, if_neg h2, hrec]
          by_cases hE : ∃ v ∈ rest, beh v = .status 200
          · have hE' : ∃ v ∈ u :: rest, beh v = .status 200 := by
              obtain ⟨v, hv, hv2⟩ := hE
              exact ⟨v, List.mem_cons_of_mem _ hv, hv2⟩
            simp [hE, hE']
          · have hE' : ¬ ∃ v ∈ u :: rest, beh v = .status 200 := by
              rintro ⟨v, hv, hv2⟩
              rcases List.mem_cons.mp hv with rfl | hv'
              · exact hne hv2
              · exact hE ⟨v, hv', hv2⟩
            simp [hE, hE', hne]

theorem pegInGo_panic (reqId : TransactionId) (beh : Nat → MintBehavior) :
    ∀ (pre : List Nat) (u : Nat) (post : List Nat) (s : Nat),
    beh u = .unreachable →
    s + pre.countP (fun v => beh v = .status 200) < 2 →
    (pegInGo reqId beh (pre ++ u :: post) s).1 = .panicked := by
  intro pre
  induction pre with
  | nil =>
    intro u post s hu _
    simp [pegInGo, hu]
  | cons v pre' ih =>
    intro u post s hu hcount
    cases hb : beh v with
    | unreachable => simp [pegInGo, hb]
    | status code =>
      rw [List.countP_cons] at hcount
      by_cases hc : code = 200
      · subst hc
        simp only [hb, decide_eq_true_eq, if_true] at hcount
        have hcount' : s + 1 + pre'.countP (fun w => beh w = .status 200) < 2 := by omega
        have h2 : ¬ 2 ≤ s + 1 := by omega
        simp [pegInGo, hb, h2]
        exact ih u post (s + 1) hu hcount'
      · have hfalse : ¬ beh v = MintBehavior.status 200 := by simp [hb, hc]
        rw [if_neg (by simpa using hfalse)] at hcount
        have h2 : ¬ 2 ≤ s := by omega
        have hcount' : s + pre'.countP (fun w => beh w = .status 200) < 2 := by omega
        simp [pegInGo, hb, hc, h2]
        exact ih u post s hu hcount'

/-- C2 counterexample: the claim fails on the code in two ways.  With a single
configured mint that is unreachable at the transport level, `peg_in` panics
(`.expect("API error")`) instead of returning the typed `MintError` the claim
promises for "every mint rejected or was unreachable".  And with a single mint
answering HTTP 204 — an HTTP success status that is not 200 — `peg_in` returns
`MintError` even though "at least one mint responded with HTTP success". -/
theorem peg_in_broadcast_cex :
    (MintClient.peg_in TestPrims cfg0 1 (fun n => n) [0] behAllDown storeEmpty).1 =
      .panicked ∧
    (PegOutcome.panicked ≠ .errored .MintError) ∧
    (MintClient.peg_in TestPrims cfg0 1 (fun n => n) [0] behAll204 storeEmpty).1 =
      .errored .MintError ∧
    ((PegOutcome.errored .MintError) ≠ .ok (pegInReqId TestPrims cfg0 1 (fun n => n))) :=
  ⟨rfl, by decide, rfl, by decide⟩

/-- C2 (amended): Broadcast result semantics: when every contacted mint is
reachable, `peg_in` returns `Ok` with the request's `TransactionId` iff at
least one mint responded with HTTP status 200 (`StatusCode::OK` exactly —
other success statuses do not count), and returns the typed `MintError` iff no
mint responded 200 (a rejecting mint is one that didn't count); a mint that is
unreachable at the transport level is not tolerated: if it is contacted before
two 200-successes have accumulated, `peg_in` panics instead of returning a
typed error. -/
theorem peg_in_broadcast_amended
    (P : Primitives) (cfg : ClientConfig) (amount : Nat) (rng : Nat → Nat)
    (order : List Nat) (beh : Nat → MintBehavior) (store : Store) :
    ((∀ u ∈ order, beh u ≠ .unreachable) →
      (((MintClient.peg_in P cfg amount rng order beh store).1 =
          .ok (pegInReqId P cfg amount rng)) ↔ ∃ u ∈ order, beh u = .status 200) ∧
      (((MintClient.peg_in P cfg amount rng order beh store).1 =
          .errored .MintError) ↔ ¬ ∃ u ∈ order, beh u = .status 200)) ∧
    (∀ pre u post, order = pre ++ u :: post → beh u = .unreachable →
      pre.countP (fun v => beh v = .status 200) < 2 →
      (MintClient.peg_in P cfg amount rng order beh store).1 = .panicked) := by
  have hres : (MintClient.peg_in P cfg amount rng order beh store).1 =
      (pegInGo (pegInReqId P cfg amount rng) beh order 0).1 := rfl
  constructor
  · intro hall
    rw [hres, pegInGo_reachable _ _ order 0 hall]
    by_cases hE : ∃ u ∈ order, beh u = .status 200
    · simp [hE]
    · simp [hE]
  · intro pre u post horder hu hcount
    rw [hres, horder]
    exact pegInGo_panic _ _ pre u post 0 hu (by simpa using hcount)

theorem peg_in_broadcast_amended_witness :
    ((MintClient.peg_in TestPrims cfg0 1 (fun n => n) [0] behAll200 storeEmpty).1 =
      .ok (pegInReqId TestPrims cfg0 1 (fun n => n))) ∧
    (MintClient.peg_in TestPrims cfg0 1 (fun n => n) [7] behAllDown storeEmpty).1 =
      .panicked :=
  ⟨(((peg_in_broadcast_amended TestPrims cfg0 1 (fun n => n) [0] behAll200 storeEmpty).1
      (by decide)).1).mpr ⟨0, by decide, by decide⟩,
   (peg_in_broadcast_amended TestPrims cfg0 1 (fun n => n) [7] behAllDown storeEmpty).2
     [] 7 [] rfl (by decide) (by decide)⟩

end MintClientModel
